import Mathlib

/-!
Verification of the OCR service core (layout reconstruction, engine adapters,
service facade, image cropping) against its natural-language specification.

The Python source is shallowly embedded:
- float coordinates and confidences are modelled as exact rationals;
- a bounding box is the tagged union that the code distinguishes at run time
  by inspecting the first element (a list of points versus a flat 4-tuple);
- the stable Timsort used by Python's list.sort with a key is modelled by
  insertion sort on the corresponding preorder: any two stable sorts agree,
  so the model is exact;
- the in-place sort performed on the caller's list is modelled by returning
  the final list state alongside the string result;
- each engine adapter is a function of the backend call's outcome, with a
  raised backend exception modelled as an Except.error carrying its message.
-/

namespace OCR

/-- Bounding box: either an axis-aligned rectangle given as x, y, width,
height, or a polygon given as a list of points.  This mirrors the run-time
shape dispatch in reconstruct_layout's helpers, which test whether the first
element of the bbox is itself a list. -/
inductive BBox where
  | axis (x y w h : ℚ)
  | poly (points : List (ℚ × ℚ))
  deriving DecidableEq

/-- Minimum of a list of rationals, as Python's min over a nonempty sequence;
the empty case (never reached by the code, which would fail earlier when
indexing bbox[0]) is given the junk value 0. -/
def listMin : List ℚ → ℚ
  | [] => 0
  | a :: t => t.foldl min a

/-- Maximum of a list of rationals, as Python's max over a nonempty
sequence. -/
def listMax : List ℚ → ℚ
  | [] => 0
  | a :: t => t.foldl max a

/-- Embeds get_cy from reconstruct_layout: mean of the point ordinates for a
polygon, y + h/2 for an axis-aligned box. -/
def get_cy : BBox → ℚ
  | .poly ps => (ps.map Prod.snd).sum / ((ps.map Prod.snd).length : ℚ)
  | .axis _ y _ h => y + h / 2

/-- Embeds get_x from reconstruct_layout: least point abscissa for a polygon,
x for an axis-aligned box. -/
def get_x : BBox → ℚ
  | .poly ps => listMin (ps.map Prod.fst)
  | .axis x _ _ _ => x

/-- Embeds get_h from reconstruct_layout: extent of the point ordinates for a
polygon, h for an axis-aligned box. -/
def get_h : BBox → ℚ
  | .poly ps => listMax (ps.map Prod.snd) - listMin (ps.map Prod.snd)
  | .axis _ _ _ h => h

/-- Embeds the right-edge computation used to update last_x_end in
reconstruct_layout: greatest point abscissa for a polygon, x + w for an
axis-aligned box. -/
def rightEdge : BBox → ℚ
  | .poly ps => listMax (ps.map Prod.fst)
  | .axis x _ w _ => x + w

/-- One recognized text fragment: the dict with keys text, confidence and
bbox that every adapter produces. -/
structure Frag where
  text : String
  confidence : ℚ
  bbox : BBox
  deriving DecidableEq

/-- Key order used by lines.sort in reconstruct_layout: comparison of the
fragments' vertical centers. -/
def cyLe (a b : Frag) : Prop := get_cy a.bbox ≤ get_cy b.bbox

instance : DecidableRel cyLe := fun a b =>
  inferInstanceAs (Decidable (get_cy a.bbox ≤ get_cy b.bbox))

instance : IsTotal Frag cyLe := ⟨fun a b => le_total (get_cy a.bbox) (get_cy b.bbox)⟩

instance : IsTrans Frag cyLe := ⟨fun _ _ _ h1 h2 => le_trans h1 h2⟩

/-- Key order used by row.sort in reconstruct_layout: comparison of the
fragments' left edges. -/
def xLe (a b : Frag) : Prop := get_x a.bbox ≤ get_x b.bbox

instance : DecidableRel xLe := fun a b =>
  inferInstanceAs (Decidable (get_x a.bbox ≤ get_x b.bbox))

instance : IsTotal Frag xLe := ⟨fun a b => le_total (get_x a.bbox) (get_x b.bbox)⟩

instance : IsTrans Frag xLe := ⟨fun _ _ _ h1 h2 => le_trans h1 h2⟩

/-- Strict comparison of vertical centers, used to reason about sorting when
all centers are distinct. -/
def cyLt (a b : Frag) : Prop := get_cy a.bbox < get_cy b.bbox

instance : IsAntisymm Frag cyLt :=
  ⟨fun _ _ h1 h2 => absurd (lt_trans h1 h2) (lt_irrefl _)⟩

/-- Row-membership test of reconstruct_layout: the candidate joins the
current row when the distance between its vertical center and that of the
row's most recently appended member is below half that member's height
(y_diff < h * 0.5 in the code). -/
def sameRow (prev cur : Frag) : Prop :=
  |get_cy cur.bbox - get_cy prev.bbox| < get_h prev.bbox * 0.5

instance (p c : Frag) : Decidable (sameRow p c) :=
  inferInstanceAs (Decidable (|get_cy c.bbox - get_cy p.bbox| < get_h p.bbox * 0.5))

/-- Greedy row grouping loop of reconstruct_layout.  The current row is
carried as its last member prev plus the earlier members in reverse order;
each further fragment either extends the row or closes it and opens a new
one. -/
def groupGo : Frag → List Frag → List Frag → List (List Frag)
  | prev, curRev, [] => [(prev :: curRev).reverse]
  | prev, curRev, b :: rest =>
    if sameRow prev b then groupGo b (prev :: curRev) rest
    else (prev :: curRev).reverse :: groupGo b [] rest

/-- Rows built by reconstruct_layout from the (already Y-sorted) fragment
list: the first fragment opens the first row, the loop of groupGo does the
rest.  The empty list yields no rows. -/
def groupRows : List Frag → List (List Frag)
  | [] => []
  | f :: rest => groupGo f [] rest

/-- Space count inserted before a fragment: int(gap / 10) in the code where
gap = max(0, x_start - last_x_end); the gap is nonnegative, so Python's
truncating int() coincides with the floor. -/
def spacesFor (lastEnd xStart : ℚ) : ℕ := (⌊max 0 (xStart - lastEnd) / 10⌋).toNat

/-- A run of n space characters, as the Python expression " " * n. -/
def spaceStr (n : ℕ) : String := String.mk (List.replicate n ' ')

/-- Loop body of the per-row rendering in reconstruct_layout: the accumulator
is the pair (line_text, last_x_end); spaces are added only when
last_x_end > 0, then the fragment's text, then the right edge is stored. -/
def rowStep (a : String × ℚ) (item : Frag) : String × ℚ :=
  ((if a.2 > 0 then a.1 ++ spaceStr (spacesFor a.2 (get_x item.bbox)) else a.1) ++ item.text,
   rightEdge item.bbox)

/-- Per-row rendering of reconstruct_layout: sort the row by left edge
(row.sort with key get_x, a stable sort), then fold rowStep from
line_text = "" and last_x_end = 0. -/
def renderRow (row : List Frag) : String :=
  ((row.insertionSort xLe).foldl rowStep ("", 0)).1

/-- Embeds reconstruct_layout together with the final state of the caller's
list: the function returns "" at once on an empty list; otherwise it sorts
the list in place by vertical center (stable), groups it into rows, renders
each row and joins the rows with newlines.  The second component is the
caller's list after the call (the in-place sort is the only mutation; the
later per-row sorts act on fresh row lists). -/
def reconstructState (lines : List Frag) : String × List Frag :=
  if lines = [] then ("", lines)
  else
    (String.intercalate "\n" ((groupRows (lines.insertionSort cyLe)).map renderRow),
     lines.insertionSort cyLe)

/-- Return value of reconstruct_layout. -/
def reconstruct_layout (lines : List Frag) : String := (reconstructState lines).1

/-- Relation between two consecutive rows: the fragment that opened the later
row failed the sameRow test against the last member of the earlier row. -/
def rowBreak (r1 r2 : List Frag) : Prop :=
  ∀ a ∈ r1.getLast?, ∀ b ∈ r2.head?, ¬ sameRow a b

/-- Follows the specification's wording for the per-row line building: walk
the members in order and, before appending a member's text, insert
floor(max(0, leftX(current) - previousRightX) / 10) spaces - but only when
previousRightX > 0, which in particular prepends nothing before the row's
first fragment. -/
def renderRowSpecGo : ℚ → List Frag → String
  | _, [] => ""
  | prevRight, m :: rest =>
    (if prevRight > 0 then spaceStr (spacesFor prevRight (get_x m.bbox)) else "")
      ++ m.text ++ renderRowSpecGo (rightEdge m.bbox) rest

/-- Specification-side row rendering: members sorted by left edge ascending,
then rendered by renderRowSpecGo starting from previousRightX = 0. -/
def renderRowSpec (row : List Frag) : String :=
  renderRowSpecGo 0 (row.insertionSort xLe)

/-- Specification-side reconstruction: rows as grouped from the Y-sorted
list, each rendered by renderRowSpec, joined with a single newline in
top-to-bottom order. -/
def reconstructSpec (l : List Frag) : String :=
  if l = [] then ""
  else String.intercalate "\n" ((groupRows (l.insertionSort cyLe)).map renderRowSpec)

/-- Fragment A of the specification's concrete row-grouping case:
bbox [0, 0, 50, 20], center y 10, height 20. -/
def fragA : Frag := ⟨"A", 1, BBox.axis 0 0 50 20⟩

/-- Fragment B of the specification's concrete row-grouping case:
bbox [60, 8, 50, 20], center y 18. -/
def fragB : Frag := ⟨"B", 1, BBox.axis 60 8 50 20⟩

/-- Fragment C of the specification's concrete spacing case: right edge at
25. -/
def fragC : Frag := ⟨"C", 1, BBox.axis 0 0 25 20⟩

/-- Fragment D of the specification's concrete spacing case: left edge at 50,
hence a horizontal gap of exactly 25 pixels after fragC. -/
def fragD : Frag := ⟨"D", 1, BBox.axis 50 8 25 20⟩

/-- Fragment with text a used in the order-dependence counterexample; it has
the same bbox as fragF. -/
def fragE : Frag := ⟨"a", 1, BBox.axis 0 0 10 10⟩

/-- Fragment with text b used in the order-dependence counterexample; it has
the same bbox as fragE. -/
def fragF : Frag := ⟨"b", 1, BBox.axis 0 0 10 10⟩

/-- Result dictionary returned by the recognize methods and by
OCRService.process_image.  Keys absent from a given branch of the Python code
are modelled as none. -/
structure RecResult where
  success : Bool
  text : Option String
  lines : Option (List Frag)
  error : Option String
  engine : Option String
  deriving DecidableEq

/-- Raw detection handed back by the PaddleOCR and EasyOCR backends: a
quadrilateral of points together with the text and its confidence. -/
structure RawDet where
  bbox : List (ℚ × ℚ)
  text : String
  prob : ℚ
  deriving DecidableEq

/-- Fragment list the Paddle adapter builds from the backend detections. -/
def paddleLines (items : List RawDet) : List Frag :=
  items.map fun it => ⟨it.text, it.prob, BBox.poly it.bbox⟩

/-- Embeds PaddleOCREngine.recognize as a function of the backend call's
outcome: a raised exception becomes an Except.error with its message, a falsy
result list is the empty detection, and otherwise the fragments are built and
the text is produced by reconstruct_layout. -/
def paddleRecognize (backend : Except String (List RawDet)) : RecResult :=
  match backend with
  | .error e => ⟨false, none, none, some e, some "paddleocr"⟩
  | .ok [] => ⟨true, some "", some [], none, some "paddleocr"⟩
  | .ok items =>
    ⟨true, some (reconstruct_layout (paddleLines items)), some (paddleLines items),
     none, some "paddleocr"⟩

/-- Python's int() truncation toward zero on an exact rational. -/
def pyInt (q : ℚ) : ℤ := if 0 ≤ q then ⌊q⌋ else ⌈q⌉

/-- Fragment list the EasyOCR adapter builds: each detection's points are
truncated to integers with int() before being stored. -/
def easyLines (results : List RawDet) : List Frag :=
  results.map fun r =>
    ⟨r.text, r.prob, BBox.poly (r.bbox.map fun p => ((pyInt p.1 : ℚ), (pyInt p.2 : ℚ)))⟩

/-- Embeds EasyOCREngine.recognize as a function of the backend call's
outcome; the text is always produced by reconstruct_layout. -/
def easyRecognize (backend : Except String (List RawDet)) : RecResult :=
  match backend with
  | .error e => ⟨false, none, none, some e, some "easyocr"⟩
  | .ok results =>
    ⟨true, some (reconstruct_layout (easyLines results)), some (easyLines results),
     none, some "easyocr"⟩

/-- One raw token of pytesseract's image_to_data output: the parallel arrays
text, conf, left, top, width, height at one index. -/
structure TessTok where
  text : String
  conf : ℤ
  left : ℚ
  top : ℚ
  width : ℚ
  height : ℚ
  deriving DecidableEq

/-- Fragment built from one surviving Tesseract token: confidence rescaled by
division by 100, bbox assembled as [left, top, width, height]. -/
def tessFrag (t : TessTok) : Frag :=
  ⟨t.text, (t.conf : ℚ) / 100, BBox.axis t.left t.top t.width t.height⟩

/-- Embeds the token loop of TesseractOCREngine.recognize: a token
contributes a fragment exactly when int(conf) > 0. -/
def tesseractLines (toks : List TessTok) : List Frag :=
  (toks.filter fun t => decide (0 < t.conf)).map tessFrag

/-- Whitespace set of Python's str.strip with no argument: the characters
Python's str.isspace accepts, namely the ASCII whitespace characters
(tab through carriage return and space), the separators U+001C through
U+001F, the next-line character U+0085, the no-break space U+00A0, the ogham
space U+1680, the typographic spaces U+2000 through U+200A, the line and
paragraph separators U+2028 and U+2029, the narrow no-break space U+202F,
the mathematical space U+205F and the ideographic space U+3000. -/
def pyIsSpace (c : Char) : Bool :=
  c = ' ' || c = '\t' || c = '\n' || c = '\x0b' || c = '\x0c' || c = '\r' ||
  c = '\x1c' || c = '\x1d' || c = '\x1e' || c = '\x1f' ||
  c = '\x85' || c = '\xa0' || c = '\u1680' ||
  (0x2000 ≤ c.toNat && c.toNat ≤ 0x200a) ||
  c = '\u2028' || c = '\u2029' || c = '\u202f' || c = '\u205f' || c = '\u3000'

/-- Python's str.strip(): leading and trailing whitespace removed. -/
def pyStrip (s : String) : String :=
  String.mk (((s.data.dropWhile pyIsSpace).reverse.dropWhile pyIsSpace).reverse)

/-- Embeds TesseractOCREngine.recognize as a function of the backend calls'
outcome (image open, image_to_data and image_to_string combined): on success
the result text is the stripped whole-image string - reconstruct_layout is
not applied - and the fragments come from the token loop. -/
def tesseractRecognize (backend : Except String (String × List TessTok)) : RecResult :=
  match backend with
  | .error e => ⟨false, none, none, some e, some "tesseract"⟩
  | .ok (raw, toks) =>
    ⟨true, some (pyStrip raw), some (tesseractLines toks), none, some "tesseract"⟩

/-- Embeds OCRService.process_image: the filesystem existence check is the
function pathExists, the configured adapter's recognize method is the
function recognize. -/
def process_image (pathExists : String → Bool) (recognize : String → RecResult)
    (path : String) : RecResult :=
  if pathExists path then recognize path
  else ⟨false, none, none, some ("Image file not found: " ++ path), none⟩

/-- Raster image of ImageProcessor: dimensions plus pixel grid, indexed row
first as in numpy. -/
structure Img where
  height : ℕ
  width : ℕ
  pix : ℕ → ℕ → ℤ

/-- Embeds ImageProcessor.crop, clamping in the code's order: x into
[0, width], y into [0, height], w into [0, width - x], h into
[0, height - y] (each using the already-clamped values), then returning the
input unchanged on a zero-area request and the numpy slice
image[y:y+h, x:x+w] otherwise. -/
def crop (img : Img) (x y w h : ℤ) : Img :=
  let x := max 0 (min x (img.width : ℤ))
  let y := max 0 (min y (img.height : ℤ))
  let w := max 0 (min w ((img.width : ℤ) - x))
  let h := max 0 (min h ((img.height : ℤ) - y))
  if w = 0 ∨ h = 0 then img
  else ⟨h.toNat, w.toNat, fun r c => img.pix (y.toNat + r) (x.toNat + c)⟩

/-- Clamped x of ImageProcessor.crop: x brought into [0, width]. -/
def clampX (img : Img) (x : ℤ) : ℤ := max 0 (min x (img.width : ℤ))

/-- Clamped y of ImageProcessor.crop: y brought into [0, height]. -/
def clampY (img : Img) (y : ℤ) : ℤ := max 0 (min y (img.height : ℤ))

/-- Clamped w of ImageProcessor.crop: w brought into [0, width - clamped x]. -/
def clampW (img : Img) (x w : ℤ) : ℤ := max 0 (min w ((img.width : ℤ) - clampX img x))

/-- Clamped h of ImageProcessor.crop: h brought into
[0, height - clamped y]. -/
def clampH (img : Img) (y h : ℤ) : ℤ := max 0 (min h ((img.height : ℤ) - clampY img y))

theorem foldlMin_le (t : List ℚ) (a : ℚ) :
    t.foldl min a ≤ a ∧ ∀ b ∈ t, t.foldl min a ≤ b := by
  induction t generalizing a with
  | nil => exact ⟨le_refl a, by simp⟩
  | cons c t ih =>
    have h := ih (min a c)
    refine ⟨h.1.trans (min_le_left a c), ?_⟩
    intro b hb
    rcases List.mem_cons.mp hb with hb | hb
    · subst hb
      exact h.1.trans (min_le_right a b)
    · exact h.2 b hb

theorem foldlMin_mem (t : List ℚ) (a : ℚ) : t.foldl min a ∈ a :: t := by
  induction t generalizing a with
  | nil => simp
  | cons c t ih =>
    have h := ih (min a c)
    rcases List.mem_cons.mp h with h | h
    · rcases min_choice a c with hm | hm <;> rw [List.foldl_cons, h, hm]
      · exact List.mem_cons_self a (c :: t)
      · exact List.mem_cons_of_mem a (List.mem_cons_self c t)
    · exact List.mem_cons_of_mem a (List.mem_cons_of_mem c h)

theorem listMin_mem {l : List ℚ} (h : l ≠ []) : listMin l ∈ l := by
  cases l with
  | nil => exact absurd rfl h
  | cons a t => exact foldlMin_mem t a

theorem listMin_le {l : List ℚ} : ∀ b ∈ l, listMin l ≤ b := by
  cases l with
  | nil => simp
  | cons a t =>
    intro b hb
    rcases List.mem_cons.mp hb with hb | hb
    · subst hb
      exact (foldlMin_le t b).1
    · exact (foldlMin_le t a).2 b hb

theorem listMin_perm {l₁ l₂ : List ℚ} (h : l₁.Perm l₂) : listMin l₁ = listMin l₂ := by
  rcases eq_or_ne l₁ [] with h1 | h1
  · subst h1
    rw [h.nil_eq]
  · have h2 : l₂ ≠ [] := fun h2 => h1 (h2 ▸ h).eq_nil
    exact le_antisymm
      (listMin_le _ (h.mem_iff.mpr (listMin_mem h2)))
      (listMin_le _ (h.mem_iff.mp (listMin_mem h1)))

theorem foldlMax_ge (t : List ℚ) (a : ℚ) :
    a ≤ t.foldl max a ∧ ∀ b ∈ t, b ≤ t.foldl max a := by
  induction t generalizing a with
  | nil => exact ⟨le_refl a, by simp⟩
  | cons c t ih =>
    have h := ih (max a c)
    refine ⟨(le_max_left a c).trans h.1, ?_⟩
    intro b hb
    rcases List.mem_cons.mp hb with hb | hb
    · subst hb
      exact (le_max_right a b).trans h.1
    · exact h.2 b hb

theorem foldlMax_mem (t : List ℚ) (a : ℚ) : t.foldl max a ∈ a :: t := by
  induction t generalizing a with
  | nil => simp
  | cons c t ih =>
    have h := ih (max a c)
    rcases List.mem_cons.mp h with h | h
    · rcases max_choice a c with hm | hm <;> rw [List.foldl_cons, h, hm]
      · exact List.mem_cons_self a (c :: t)
      · exact List.mem_cons_of_mem a (List.mem_cons_self c t)
    · exact List.mem_cons_of_mem a (List.mem_cons_of_mem c h)

theorem listMax_mem {l : List ℚ} (h : l ≠ []) : listMax l ∈ l := by
  cases l with
  | nil => exact absurd rfl h
  | cons a t => exact foldlMax_mem t a

theorem listMax_ge {l : List ℚ} : ∀ b ∈ l, b ≤ listMax l := by
  cases l with
  | nil => simp
  | cons a t =>
    intro b hb
    rcases List.mem_cons.mp hb with hb | hb
    · subst hb
      exact (foldlMax_ge t b).1
    · exact (foldlMax_ge t a).2 b hb

theorem listMax_perm {l₁ l₂ : List ℚ} (h : l₁.Perm l₂) : listMax l₁ = listMax l₂ := by
  rcases eq_or_ne l₁ [] with h1 | h1
  · subst h1
    rw [h.nil_eq]
  · have h2 : l₂ ≠ [] := fun h2 => h1 (h2 ▸ h).eq_nil
    exact le_antisymm
      (listMax_ge _ (h.mem_iff.mp (listMax_mem h1)))
      (listMax_ge _ (h.mem_iff.mpr (listMax_mem h2)))

/-- C4: for an axis-aligned box [x, y, w, h] with nonnegative extents and the
polygon listing the four corner points of the same rectangle in any order,
the geometry accessors used by reconstruct_layout agree on the two
representations: the vertical center is y + h/2, the left edge is x and the
height is h. -/
theorem c4_geometry_equiv (x y w h : ℚ) (hw : 0 ≤ w) (hh : 0 ≤ h)
    (ps : List (ℚ × ℚ))
    (hps : ps.Perm [(x, y), (x + w, y), (x + w, y + h), (x, y + h)]) :
    get_cy (BBox.poly ps) = get_cy (BBox.axis x y w h) ∧
    get_x (BBox.poly ps) = get_x (BBox.axis x y w h) ∧
    get_h (BBox.poly ps) = get_h (BBox.axis x y w h) ∧
    get_cy (BBox.axis x y w h) = y + h / 2 ∧
    get_x (BBox.axis x y w h) = x ∧
    get_h (BBox.axis x y w h) = h := by
  have hsnd : (ps.map Prod.snd).Perm [y, y, y + h, y + h] := by
    simpa using hps.map Prod.snd
  have hfst : (ps.map Prod.fst).Perm [x, x + w, x + w, x] := by
    simpa using hps.map Prod.fst
  have hxw : x ≤ x + w := by linarith
  have hyh : y ≤ y + h := by linarith
  have hminx : listMin (ps.map Prod.fst) = x := by
    rw [listMin_perm hfst]
    show List.foldl min x [x + w, x + w, x] = x
    simp only [List.foldl_cons, List.foldl_nil, min_eq_left hxw, min_self]
  have hminy : listMin (ps.map Prod.snd) = y := by
    rw [listMin_perm hsnd]
    show List.foldl min y [y, y + h, y + h] = y
    simp only [List.foldl_cons, List.foldl_nil, min_eq_left hyh, min_self]
  have hmaxy : listMax (ps.map Prod.snd) = y + h := by
    rw [listMax_perm hsnd]
    show List.foldl max y [y, y + h, y + h] = y + h
    simp only [List.foldl_cons, List.foldl_nil, max_eq_right hyh, max_self]
  have hcy : get_cy (BBox.poly ps) = y + h / 2 := by
    show (ps.map Prod.snd).sum / ((ps.map Prod.snd).length : ℚ) = y + h / 2
    rw [hsnd.sum_eq, hsnd.length_eq]
    show (y + (y + (y + h + (y + h + 0)))) / ((4 : ℕ) : ℚ) = y + h / 2
    norm_num
    ring
  refine ⟨?_, ?_, ?_, ?_, ?_, ?_⟩
  · exact hcy
  · show listMin (ps.map Prod.fst) = x
    exact hminx
  · show listMax (ps.map Prod.snd) - listMin (ps.map Prod.snd) = h
    rw [hmaxy, hminy]
    ring
  · rfl
  · rfl
  · rfl

/-- C4 witness: the theorem applied at the unit square with the corner list
reversed. -/
theorem c4_geometry_equiv_witness :
    get_cy (BBox.poly [(0, 1), (1, 1), (1, 0), (0, 0)]) =
      get_cy (BBox.axis 0 0 1 1) ∧
    get_x (BBox.poly [(0, 1), (1, 1), (1, 0), (0, 0)]) =
      get_x (BBox.axis 0 0 1 1) ∧
    get_h (BBox.poly [(0, 1), (1, 1), (1, 0), (0, 0)]) =
      get_h (BBox.axis 0 0 1 1) ∧
    get_cy (BBox.axis 0 0 1 1) = 0 + 1 / 2 ∧
    get_x (BBox.axis 0 0 1 1) = 0 ∧
    get_h (BBox.axis 0 0 1 1) = 1 := by
  have h := c4_geometry_equiv 0 0 1 1 (by norm_num) (by norm_num)
    [(0, 1), (1, 1), (1, 0), (0, 0)] (by with_unfolding_all decide)
  simpa using h

/-- C5: no adapter lets a backend failure escape to its caller: a raised
backend exception (modelled as Except.error with the exception's message)
becomes a result with success false, the message as error and the engine
kind; and reconstruct_layout is a total function that returns the empty
string on the empty fragment list. -/
theorem c5_recognize_never_throws :
    (∀ e, paddleRecognize (Except.error e) =
        ⟨false, none, none, some e, some "paddleocr"⟩) ∧
    (∀ e, tesseractRecognize (Except.error e) =
        ⟨false, none, none, some e, some "tesseract"⟩) ∧
    (∀ e, easyRecognize (Except.error e) =
        ⟨false, none, none, some e, some "easyocr"⟩) ∧
    reconstruct_layout [] = "" :=
  ⟨fun _ => rfl, fun _ => rfl, fun _ => rfl, rfl⟩

/-- C6: in the Tesseract adapter a raw token contributes a fragment exactly
when its integer confidence is strictly positive, each token is judged
independently, and a surviving fragment's confidence is the raw confidence
divided by 100; in particular confidences -1 and 0 are dropped and
confidence 45 becomes 0.45. -/
theorem c6_tesseract_conf_filter :
    (∀ ts1 ts2, tesseractLines (ts1 ++ ts2) = tesseractLines ts1 ++ tesseractLines ts2) ∧
    (∀ t : TessTok, tesseractLines [t] = if 0 < t.conf then [tessFrag t] else []) ∧
    (∀ t : TessTok, (tessFrag t).confidence = (t.conf : ℚ) / 100) ∧
    tesseractLines [⟨"w", -1, 1, 2, 3, 4⟩] = [] ∧
    tesseractLines [⟨"w", 0, 1, 2, 3, 4⟩] = [] ∧
    tesseractLines [⟨"w", 45, 1, 2, 3, 4⟩] = [⟨"w", 0.45, BBox.axis 1 2 3 4⟩] := by
  refine ⟨?_, ?_, fun _ => rfl, ?_, ?_, ?_⟩
  · intro ts1 ts2
    simp [tesseractLines, List.filter_append]
  · intro t
    by_cases h : 0 < t.conf <;> simp [tesseractLines, List.filter_cons, h]
  · with_unfolding_all decide
  · with_unfolding_all decide
  · with_unfolding_all decide

/-- C7 counterexample: the Tesseract adapter does not use the backend's
whole-image string verbatim; on the successful recognition whose raw
whole-image string ends in a newline, the result text differs from that
string (the code strips it). -/
theorem c7_counterexample :
    (tesseractRecognize (Except.ok ("hi\n", []))).success = true ∧
    (tesseractRecognize (Except.ok ("hi\n", []))).text ≠ some "hi\n" := by
  with_unfolding_all decide

/-- C7 amended: for every successful recognition the Tesseract adapter's
result text is the independently obtained whole-image string with leading
and trailing whitespace stripped - it depends only on that string, not on
the token data, and reconstruct_layout is not applied to produce it - while
the Paddle and EasyOCR adapters' result text always equals
reconstruct_layout of the extracted fragment list. -/
theorem c7_text_sources :
    (∀ raw toks, tesseractRecognize (Except.ok (raw, toks)) =
        ⟨true, some (pyStrip raw), some (tesseractLines toks), none, some "tesseract"⟩) ∧
    (∀ items, (paddleRecognize (Except.ok items)).text =
        some (reconstruct_layout (paddleLines items))) ∧
    (∀ results, (easyRecognize (Except.ok results)).text =
        some (reconstruct_layout (easyLines results))) := by
  refine ⟨fun _ _ => rfl, ?_, fun _ => rfl⟩
  intro items
  cases items with
  | nil => rfl
  | cons a t => rfl

/-- C8: process_image on a path failing the existence check returns success
false with error message "Image file not found: " followed by the path,
without consulting the adapter (the result is the same whatever recognize
is); on a path passing the check it returns exactly what the adapter's
recognize returns. -/
theorem c8_process_image_guard :
    (∀ (ex : String → Bool) (r1 r2 : String → RecResult) (p : String),
        ex p = false →
        process_image ex r1 p =
          ⟨false, none, none, some ("Image file not found: " ++ p), none⟩ ∧
        process_image ex r1 p = process_image ex r2 p) ∧
    (∀ (ex : String → Bool) (r : String → RecResult) (p : String),
        ex p = true → process_image ex r p = r p) := by
  constructor
  · intro ex r1 r2 p hp
    constructor <;> simp [process_image, hp]
  · intro ex r p hp
    simp [process_image, hp]

/-- C8 witness: the theorem applied to an existence check that always fails
and to one that always succeeds, at a concrete path. -/
theorem c8_process_image_guard_witness :
    process_image (fun _ => false) (fun _ => ⟨true, some "x", some [], none, none⟩) "img.png"
      = ⟨false, none, none, some ("Image file not found: " ++ "img.png"), none⟩ ∧
    process_image (fun _ => true) (fun _ => ⟨true, some "x", some [], none, none⟩) "img.png"
      = ⟨true, some "x", some [], none, none⟩ :=
  ⟨(c8_process_image_guard.1 (fun _ => false)
      (fun _ => ⟨true, some "x", some [], none, none⟩)
      (fun _ => ⟨false, none, none, none, none⟩) "img.png" rfl).1,
   c8_process_image_guard.2 (fun _ => true)
      (fun _ => ⟨true, some "x", some [], none, none⟩) "img.png" rfl⟩

theorem groupGo_join : ∀ (rest : List Frag) (prev : Frag) (curRev : List Frag),
    (groupGo prev curRev rest).flatten = (prev :: curRev).reverse ++ rest := by
  intro rest
  induction rest with
  | nil => intro prev curRev; simp [groupGo]
  | cons b rest ih =>
    intro prev curRev
    by_cases h : sameRow prev b <;> simp [groupGo, h, ih]

theorem groupGo_ne_nil : ∀ (rest : List Frag) (prev : Frag) (curRev : List Frag),
    ∀ row ∈ groupGo prev curRev rest, row ≠ [] := by
  intro rest
  induction rest with
  | nil =>
    intro prev curRev row hrow
    simp only [groupGo, List.mem_singleton] at hrow
    subst hrow
    simp
  | cons b rest ih =>
    intro prev curRev row hrow
    by_cases h : sameRow prev b
    · simp only [groupGo, if_pos h] at hrow
      exact ih b (prev :: curRev) row hrow
    · simp only [groupGo, if_neg h, List.mem_cons] at hrow
      rcases hrow with hrow | hrow
      · subst hrow
        simp
      · exact ih b [] row hrow

theorem groupGo_chain : ∀ (rest : List Frag) (prev : Frag) (curRev : List Frag),
    List.Chain' sameRow (prev :: curRev).reverse →
    ∀ row ∈ groupGo prev curRev rest, row.Chain' sameRow := by
  intro rest
  induction rest with
  | nil =>
    intro prev curRev hcur row hrow
    simp only [groupGo, List.mem_singleton] at hrow
    subst hrow
    exact hcur
  | cons b rest ih =>
    intro prev curRev hcur row hrow
    by_cases h : sameRow prev b
    · simp only [groupGo, if_pos h] at hrow
      refine ih b (prev :: curRev) ?_ row hrow
      have : (b :: prev :: curRev).reverse = (prev :: curRev).reverse ++ [b] := by
        simp
      rw [this]
      refine hcur.append (List.chain'_singleton b) ?_
      intro p hp q hq
      rw [List.getLast?_reverse] at hp
      simp only [List.head?_cons, Option.mem_def, Option.some.injEq] at hp hq
      rw [← hp, ← hq]
      exact h
    · simp only [groupGo, if_neg h, List.mem_cons] at hrow
      rcases hrow with hrow | hrow
      · subst hrow
        exact hcur
      · exact ih b [] (List.chain'_singleton b) row hrow

theorem groupGo_head : ∀ (rest : List Frag) (prev : Frag) (curRev : List Frag),
    ∃ extra t, groupGo prev curRev rest = (curRev.reverse ++ prev :: extra) :: t := by
  intro rest
  induction rest with
  | nil =>
    intro prev curRev
    exact ⟨[], [], by simp [groupGo]⟩
  | cons b rest ih =>
    intro prev curRev
    by_cases h : sameRow prev b
    · obtain ⟨e, t, ht⟩ := ih b (prev :: curRev)
      refine ⟨b :: e, t, ?_⟩
      rw [groupGo, if_pos h, ht]
      simp
    · exact ⟨[], groupGo b [] rest, by rw [groupGo, if_neg h]; simp⟩

theorem groupGo_break : ∀ (rest : List Frag) (prev : Frag) (curRev : List Frag),
    List.Chain' rowBreak (groupGo prev curRev rest) := by
  intro rest
  induction rest with
  | nil => intro prev curRev; simp [groupGo]
  | cons b rest ih =>
    intro prev curRev
    by_cases h : sameRow prev b
    · rw [groupGo, if_pos h]
      exact ih b (prev :: curRev)
    · rw [groupGo, if_neg h]
      obtain ⟨e, t, ht⟩ := groupGo_head rest b []
      simp only [List.reverse_nil, List.nil_append] at ht
      rw [ht]
      refine List.chain'_cons.mpr ⟨?_, ht ▸ ih b []⟩
      intro p hp q hq
      rw [show (prev :: curRev).reverse = curRev.reverse ++ [prev] by simp,
        List.getLast?_concat] at hp
      simp only [List.head?_cons, Option.mem_def, Option.some.injEq] at hp hq
      rw [← hp, ← hq]
      exact h

/-- C1: the greedy row grouping of reconstruct_layout preserves the sorted
fragment sequence (the rows concatenate back to it), makes every row
nonempty, appends a fragment to the current row exactly when it passes the
sameRow test against the row's most recently appended member (adjacent
members within a row always pass it, and the fragment opening a row always
fails it against the last member of the previous row); on the
specification's concrete case the fragments A and B form a single row with B
rendered to the right of A. -/
theorem c1_row_grouping :
    (∀ l : List Frag,
      (groupRows l).flatten = l ∧
      (∀ row ∈ groupRows l, row ≠ [] ∧ row.Chain' sameRow) ∧
      (groupRows l).Chain' rowBreak) ∧
    sameRow fragA fragB ∧
    groupRows (List.insertionSort cyLe [fragA, fragB]) = [[fragA, fragB]] ∧
    reconstruct_layout [fragA, fragB] = "A B" := by
  refine ⟨?_, by with_unfolding_all decide, by with_unfolding_all decide,
    by with_unfolding_all decide⟩
  intro l
  cases l with
  | nil => exact ⟨rfl, by simp [groupRows], by simp [groupRows]⟩
  | cons f rest =>
    refine ⟨?_, ?_, groupGo_break rest f []⟩
    · rw [groupRows, groupGo_join]
      simp
    · intro row hrow
      exact ⟨groupGo_ne_nil rest f [] row hrow,
        groupGo_chain rest f [] (by simp) row hrow⟩

/-- C1 witness: the grouping facts instantiated on the concrete two-fragment
list, whose single row is the whole list. -/
theorem c1_row_grouping_witness :
    (groupRows [fragA, fragB]).flatten = [fragA, fragB] ∧
    ([fragA, fragB] ≠ [] ∧ [fragA, fragB].Chain' sameRow) :=
  ⟨(c1_row_grouping.1 [fragA, fragB]).1,
   (c1_row_grouping.1 [fragA, fragB]).2.1 [fragA, fragB] (by with_unfolding_all decide)⟩

theorem foldl_rowStep_eq (ms : List Frag) :
    ∀ (acc : String) (lastEnd : ℚ),
      (ms.foldl rowStep (acc, lastEnd)).1 = acc ++ renderRowSpecGo lastEnd ms := by
  induction ms with
  | nil =>
    intro acc lastEnd
    simp [renderRowSpecGo]
  | cons m rest ih =>
    intro acc lastEnd
    rw [List.foldl_cons]
    show ((rest.foldl rowStep (rowStep (acc, lastEnd) m))).1 = _
    rw [show rowStep (acc, lastEnd) m =
        ((if lastEnd > 0 then acc ++ spaceStr (spacesFor lastEnd (get_x m.bbox)) else acc)
          ++ m.text, rightEdge m.bbox) from rfl]
    rw [ih]
    by_cases h : lastEnd > 0 <;>
      simp [renderRowSpecGo, h, String.append_assoc, String.empty_append]

theorem renderRow_eq_spec (row : List Frag) : renderRow row = renderRowSpec row := by
  rw [renderRow, renderRowSpec, foldl_rowStep_eq, String.empty_append]

/-- C2: reconstruct_layout renders exactly as the specification describes:
each row's members in left-edge ascending order, with
floor(max(0, leftX(current) - previousRightX) / 10) spaces inserted before a
member whenever previousRightX > 0 (hence never before the row's first
member, since previousRightX starts at 0), and the row lines joined with a
single newline top-to-bottom; on the concrete case, a 25-pixel gap between
fragC and fragD yields exactly two spaces. -/
theorem c2_row_rendering :
    (∀ l : List Frag, reconstruct_layout l = reconstructSpec l) ∧
    (∀ row : List Frag, (row.insertionSort xLe).Sorted xLe) ∧
    sameRow fragC fragD ∧
    get_x fragD.bbox - rightEdge fragC.bbox = 25 ∧
    reconstruct_layout [fragC, fragD] = "C  D" := by
  refine ⟨?_, fun row => List.sorted_insertionSort xLe row,
    by with_unfolding_all decide, by with_unfolding_all decide,
    by with_unfolding_all decide⟩
  intro l
  rcases eq_or_ne l [] with h | h
  · subst h
    rfl
  · rw [reconstruct_layout, reconstructState, reconstructSpec, if_neg h, if_neg h,
      show renderRow = renderRowSpec from funext renderRow_eq_spec]

/-- C3 counterexample: reconstruct_layout is not invariant under permutation
of its input.  The fragments fragE and fragF share one bbox (equal vertical
centers), so the stable sort keeps their input order and the two orders of
the same two-element set render as distinct strings. -/
theorem c3_counterexample :
    [fragE, fragF].Perm [fragF, fragE] ∧
    reconstruct_layout [fragE, fragF] ≠ reconstruct_layout [fragF, fragE] :=
  ⟨List.Perm.swap fragF fragE [], by with_unfolding_all decide⟩

/-- C3 amended: reconstruct_layout is invariant under permutation of the
input whenever the fragments' vertical centers are pairwise distinct (ties
in centerY are resolved by input order through the stable sort, so the
unrestricted claim fails). -/
theorem c3_order_independence (l1 l2 : List Frag) (hp : l1.Perm l2)
    (hd : l1.Pairwise fun a b => get_cy a.bbox ≠ get_cy b.bbox) :
    reconstruct_layout l1 = reconstruct_layout l2 := by
  have hsymm : ∀ {a b : Frag},
      get_cy a.bbox ≠ get_cy b.bbox → get_cy b.bbox ≠ get_cy a.bbox :=
    fun h => h.symm
  have hsort : l1.insertionSort cyLe = l2.insertionSort cyLe := by
    have hperm : (l1.insertionSort cyLe).Perm (l2.insertionSort cyLe) :=
      (List.perm_insertionSort cyLe l1).trans
        (hp.trans (List.perm_insertionSort cyLe l2).symm)
    have hd1 : (l1.insertionSort cyLe).Pairwise
        fun a b => get_cy a.bbox ≠ get_cy b.bbox :=
      (List.Perm.pairwise_iff hsymm (List.perm_insertionSort cyLe l1)).mpr hd
    have hd2 : (l2.insertionSort cyLe).Pairwise
        fun a b => get_cy a.bbox ≠ get_cy b.bbox :=
      (List.Perm.pairwise_iff hsymm
        ((List.perm_insertionSort cyLe l2).trans hp.symm)).mpr hd
    have hs1 : (l1.insertionSort cyLe).Sorted cyLt :=
      ((List.sorted_insertionSort cyLe l1).and hd1).imp
        fun h => lt_of_le_of_ne h.1 h.2
    have hs2 : (l2.insertionSort cyLe).Sorted cyLt :=
      ((List.sorted_insertionSort cyLe l2).and hd2).imp
        fun h => lt_of_le_of_ne h.1 h.2
    exact List.eq_of_perm_of_sorted hperm hs1 hs2
  rcases eq_or_ne l1 [] with h1 | h1
  · subst h1
    rw [hp.nil_eq]
  · have h2 : l2 ≠ [] := fun h2 => h1 (h2 ▸ hp).eq_nil
    rw [reconstruct_layout, reconstruct_layout, reconstructState, reconstructState,
      if_neg h1, if_neg h2, hsort]

/-- C3 witness: the amended theorem applied to the two orders of the
fragments A and B, whose vertical centers 10 and 18 are distinct. -/
theorem c3_order_independence_witness :
    reconstruct_layout [fragA, fragB] = reconstruct_layout [fragB, fragA] :=
  c3_order_independence [fragA, fragB] [fragB, fragA]
    (List.Perm.swap fragB fragA []) (by with_unfolding_all decide)

/-- C10: on a nonempty list, reconstruct_layout leaves the caller's list
permuted into ascending centerY order: the final list state is a permutation
of the input (same fragment values, so no text, confidence or bbox field is
modified), it is sorted by vertical center, and fragments with any given
centerY keep their original relative order (stability of the in-place
sort). -/
theorem c10_inplace_sort (l : List Frag) (hne : l ≠ []) :
    ((reconstructState l).2).Perm l ∧
    ((reconstructState l).2).Sorted cyLe ∧
    ∀ q : ℚ, ((reconstructState l).2).filter (fun f => decide (get_cy f.bbox = q)) =
      l.filter (fun f => decide (get_cy f.bbox = q)) := by
  have hstate : (reconstructState l).2 = l.insertionSort cyLe := by
    rw [reconstructState, if_neg hne]
  rw [hstate]
  refine ⟨List.perm_insertionSort cyLe l, List.sorted_insertionSort cyLe l, ?_⟩
  intro q
  have hsub : (l.filter fun f => decide (get_cy f.bbox = q)).Sublist
      (l.insertionSort cyLe) := by
    apply List.sublist_insertionSort
    · apply List.pairwise_of_forall_mem_list
      intro a ha b hb
      have ha' : get_cy a.bbox = q := of_decide_eq_true (List.mem_filter.mp ha).2
      have hb' : get_cy b.bbox = q := of_decide_eq_true (List.mem_filter.mp hb).2
      show get_cy a.bbox ≤ get_cy b.bbox
      rw [ha', hb']
    · exact List.filter_sublist l
  have hsub2 : (l.filter fun f => decide (get_cy f.bbox = q)).Sublist
      ((l.insertionSort cyLe).filter fun f => decide (get_cy f.bbox = q)) := by
    have h := hsub.filter (fun f => decide (get_cy f.bbox = q))
    rwa [List.filter_filter, show (fun f : Frag =>
        decide (get_cy f.bbox = q) && decide (get_cy f.bbox = q)) =
        fun f => decide (get_cy f.bbox = q) from funext fun f => Bool.and_self _] at h
  exact (hsub2.eq_of_length
    (((List.perm_insertionSort cyLe l).filter _).length_eq).symm).symm

/-- C10 witness: the in-place sort facts instantiated on the concrete list
holding fragB before fragA, with the filter taken at centerY 10. -/
theorem c10_inplace_sort_witness :
    ((reconstructState [fragB, fragA]).2).Perm [fragB, fragA] ∧
    ((reconstructState [fragB, fragA]).2).filter (fun f => decide (get_cy f.bbox = 10)) =
      [fragB, fragA].filter (fun f => decide (get_cy f.bbox = 10)) :=
  ⟨(c10_inplace_sort [fragB, fragA] (by with_unfolding_all decide)).1,
   (c10_inplace_sort [fragB, fragA] (by with_unfolding_all decide)).2.2 10⟩

theorem crop_zero (img : Img) (x y w h : ℤ)
    (h0 : clampW img x w = 0 ∨ clampH img y h = 0) : crop img x y w h = img := by
  show (if clampW img x w = 0 ∨ clampH img y h = 0 then img
    else Img.mk (clampH img y h).toNat (clampW img x w).toNat
      (fun r c => img.pix ((clampY img y).toNat + r) ((clampX img x).toNat + c))) = img
  rw [if_pos h0]

theorem crop_pos (img : Img) (x y w h : ℤ)
    (hw : clampW img x w ≠ 0) (hh : clampH img y h ≠ 0) :
    crop img x y w h =
      ⟨(clampH img y h).toNat, (clampW img x w).toNat,
       fun r c => img.pix ((clampY img y).toNat + r) ((clampX img x).toNat + c)⟩ := by
  show (if clampW img x w = 0 ∨ clampH img y h = 0 then img
    else Img.mk (clampH img y h).toNat (clampW img x w).toNat
      (fun r c => img.pix ((clampY img y).toNat + r) ((clampX img x).toNat + c))) = _
  rw [if_neg (not_or.mpr ⟨hw, hh⟩)]

/-- C9: crop clamps x into [0, width], y into [0, height], w into
[0, width - clamped x] and h into [0, height - clamped y]; a zero-area
request returns the input image unchanged, and otherwise the result is the
clamped-h by clamped-w subregion whose pixel (r, c) is the input's pixel
(clamped y + r, clamped x + c); in particular the request
(x = -5, y = -5, w = 10000, h = 10000) on any 100 by 100 image returns the
whole image. -/
theorem c9_crop_clamps :
    (∀ (img : Img) (x y w h : ℤ),
      (0 ≤ clampX img x ∧ clampX img x ≤ (img.width : ℤ) ∧
       0 ≤ clampY img y ∧ clampY img y ≤ (img.height : ℤ) ∧
       0 ≤ clampW img x w ∧ clampW img x w ≤ (img.width : ℤ) - clampX img x ∧
       0 ≤ clampH img y h ∧ clampH img y h ≤ (img.height : ℤ) - clampY img y) ∧
      (clampW img x w = 0 ∨ clampH img y h = 0 → crop img x y w h = img) ∧
      (clampW img x w ≠ 0 → clampH img y h ≠ 0 →
        crop img x y w h =
          ⟨(clampH img y h).toNat, (clampW img x w).toNat,
           fun r c => img.pix ((clampY img y).toNat + r) ((clampX img x).toNat + c)⟩)) ∧
    (∀ pix : ℕ → ℕ → ℤ, crop ⟨100, 100, pix⟩ (-5) (-5) 10000 10000 = ⟨100, 100, pix⟩) := by
  constructor
  · intro img x y w h
    have hxW : clampX img x ≤ (img.width : ℤ) :=
      max_le (Int.natCast_nonneg img.width) (min_le_right x _)
    have hyH : clampY img y ≤ (img.height : ℤ) :=
      max_le (Int.natCast_nonneg img.height) (min_le_right y _)
    refine ⟨⟨le_max_left 0 _, hxW, le_max_left 0 _, hyH, le_max_left 0 _, ?_,
      le_max_left 0 _, ?_⟩, crop_zero img x y w h, crop_pos img x y w h⟩
    · exact max_le (sub_nonneg.mpr hxW) (min_le_right w _)
    · exact max_le (sub_nonneg.mpr hyH) (min_le_right h _)
  · intro pix
    have hx0 : clampX (Img.mk 100 100 pix) (-5) = 0 := by
      show max 0 (min (-5) (100 : ℤ)) = 0
      norm_num
    have hy0 : clampY (Img.mk 100 100 pix) (-5) = 0 := by
      show max 0 (min (-5) (100 : ℤ)) = 0
      norm_num
    have hw0 : clampW (Img.mk 100 100 pix) (-5) 10000 = 100 := by
      show max 0 (min 10000 ((100 : ℤ) - clampX (Img.mk 100 100 pix) (-5))) = 100
      rw [hx0]
      norm_num
    have hh0 : clampH (Img.mk 100 100 pix) (-5) 10000 = 100 := by
      show max 0 (min 10000 ((100 : ℤ) - clampY (Img.mk 100 100 pix) (-5))) = 100
      rw [hy0]
      norm_num
    rw [crop_pos ⟨100, 100, pix⟩ (-5) (-5) 10000 10000
      (by rw [hw0]; norm_num) (by rw [hh0]; norm_num)]
    simp only [hx0, hy0, hw0, hh0, Int.toNat_ofNat, Int.toNat_zero]
    refine congrArg (Img.mk 100 100) ?_
    funext r c
    simp

/-- C9 witness: the zero-area branch on a width-zero request over a 3 by 3
image, and the positive branch on an out-of-range request over a 2 by 2
image. -/
theorem c9_crop_clamps_witness :
    crop ⟨3, 3, fun _ _ => 7⟩ 0 0 0 5 = ⟨3, 3, fun _ _ => 7⟩ ∧
    crop ⟨2, 2, fun _ _ => 1⟩ 1 1 5 5 =
      ⟨(clampH ⟨2, 2, fun _ _ => 1⟩ 1 5).toNat, (clampW ⟨2, 2, fun _ _ => 1⟩ 1 5).toNat,
       fun r c => (Img.mk 2 2 fun _ _ => 1).pix ((clampY ⟨2, 2, fun _ _ => 1⟩ 1).toNat + r)
         ((clampX ⟨2, 2, fun _ _ => 1⟩ 1).toNat + c)⟩ :=
  ⟨(c9_crop_clamps.1 ⟨3, 3, fun _ _ => 7⟩ 0 0 0 5).2.1 (Or.inl (by decide)),
   (c9_crop_clamps.1 ⟨2, 2, fun _ _ => 1⟩ 1 1 5 5).2.2 (by decide) (by decide)⟩

end OCR
